import Mathlib

/-!
Shallow embedding of the family-fair-allocation repository
(agents.py, partitions.py, rwav_protocol.py, monotone_families.py),
with theorems checking the natural-language specification against it.

Goods are modelled as natural numbers (the Python sources use strings with
their natural ordering; only a decidable linear order on goods is used).
Python floats produced by the `balance`/`weight` recurrence are exact binary
fractions, so they are modelled as rationals.
-/

namespace FamilyFair

/-! ## Definitions: the voting-weight engine (rwav_protocol.py, monotone_families.py) -/

/-- Embedding of `balance(r, s)` (monotone_families.py lines 234-260, and the
`k=2` branch of rwav_protocol.py lines 122-162): `1` if `s<=0`, `0` if `s>r`,
otherwise `min((balance(r-1,s)+balance(r-1,s-1))/2, balance(r-2,s-1))`. -/
def balance : ℤ → ℤ → ℚ
  | r, s =>
    if s ≤ 0 then 1
    else if s > r then 0
    else min ((balance (r - 1) s + balance (r - 1) (s - 1)) / 2)
             (balance (r - 2) (s - 1))
termination_by r _ => r.toNat
decreasing_by all_goals omega

/-- Embedding of `weight(r, s)` (monotone_families.py lines 262-281):
`balance(r,s) - balance(r-1,s)`. -/
def weight (r s : ℤ) : ℚ :=
  balance r s - balance (r - 1) s

/-- The result of a call to the generalized `balance(r, s, k)` of
rwav_protocol.py, modelled along the source's control flow:
`val q` is an exact rational return value; `kval r k` stands for the closed
form `1 - (2^(1/(k-1)))^(-r)` returned in the `k>2, s=1` branch (an irrational
real that this rational-valued embedding keeps symbolic); `errUnsupported` is
the `ValueError` raised for `k>2, s>1` ("we do not know how to calculate
weights"), and `errIllegal` the final `ValueError` for the remaining case
(`k<2` with `0 < s <= r`). -/
inductive BalanceResult where
  | val (q : ℚ)
  | kval (r k : ℤ)
  | errUnsupported
  | errIllegal
deriving DecidableEq

/-- Embedding of rwav_protocol.py `balance(r, s, k=2)` (lines 122-162): the two
base cases are checked first, then the `k==2` recurrence (delegated to
`balance`, the same recurrence), then the `k>2` cases, then the final
`raise`. -/
def balanceK (r s k : ℤ) : BalanceResult :=
  if s ≤ 0 then .val 1
  else if s > r then .val 0
  else if k = 2 then .val (balance r s)
  else if k > 2 then
    if s > 1 then .errUnsupported
    else .kval r k
  else .errIllegal

/-- Embedding of rwav_protocol.py `weight(r, s, k)` (lines 165-188):
`balance(r,s,k) - balance(r-1,s,k)`, propagating a raise from either call
as `none`; a subtraction involving the symbolic irrational `kval` branch is
also left unevaluated (`none`), which no theorem below depends on. -/
def weightK (r s k : ℤ) : Option ℚ :=
  match balanceK r s k, balanceK (r - 1) s k with
  | .val a, .val b => some (a - b)
  | _, _ => none

/-! ## Definitions: the partition enumerator (partitions.py) -/

/-- Helper for partitions.py: the variants obtained by inserting `first` into
each subset of the partition `smaller`, one variant per subset, in subset
order (the `for n, subset in enumerate(smaller)` loop, yielding
`smaller[:n] + [[first] + subset] + smaller[n+1:]`). -/
def insert_first_into_each {α : Type} (first : α) :
    List (List α) → List (List (List α))
  | [] => []
  | subset :: rest =>
      ((first :: subset) :: rest) ::
        (insert_first_into_each first rest).map (subset :: ·)

/-- Embedding of partitions.py `partitions(collection)` (lines 9-26), as the
list of yielded partitions in yield order. On the empty collection the source
raises `IndexError` (`collection[0]` with `len(collection) == 0`), modelled
as `none`; recursive calls are always on nonempty collections. -/
def partitions {α : Type} : List α → Option (List (List (List α)))
  | [] => none
  | [x] => some [[[x]]]
  | x :: y :: rest =>
      (partitions (y :: rest)).map fun smaller_list =>
        smaller_list.flatMap fun smaller =>
          insert_first_into_each x smaller ++ [[x] :: smaller]

/-- Embedding of partitions.py `partitions_to_at_most_c(collection, c)`
(lines 29-46). Note that, exactly as in the source, the recursive enumeration
is over the UNRESTRICTED `partitions(collection[1:])`, and only the
top-level new-singleton branch is pruned (`if len(smaller) < c`). -/
def partitions_to_at_most_c {α : Type} (collection : List α) (c : ℕ) :
    Option (List (List (List α))) :=
  match collection with
  | [] => none
  | [x] => some [[[x]]]
  | x :: y :: rest =>
      (partitions (y :: rest)).map fun smaller_list =>
        smaller_list.flatMap fun smaller =>
          insert_first_into_each x smaller ++
            (if smaller.length < c then [[x] :: smaller] else [])

/-- Stirling numbers of the second kind (number of partitions of an n-element
set into exactly k parts), by the standard recurrence. -/
def stirling : ℕ → ℕ → ℕ
  | 0, 0 => 1
  | 0, _ + 1 => 0
  | _ + 1, 0 => 0
  | n + 1, k + 1 => (k + 1) * stirling n (k + 1) + stirling n k

/-- Bell numbers: the number of set-partitions of an n-element set, as the
row sum of the Stirling numbers of the second kind. -/
def bell (n : ℕ) : ℕ := ∑ k ∈ Finset.range (n + 1), stirling n k

/-! ## Definitions: agents (agents.py) -/

/-- The elements of a finite set of goods, listed in ascending order: the
canonical deterministic iteration order used to model Python set/dict
iteration throughout (spec §3 requires such a canonical ordering to exist). -/
def sortedGoods (s : Finset ℕ) : List ℕ :=
  (List.range (s.sup id + 1)).filter fun g => decide (g ∈ s)

/-- Embedding of agents.py `BinaryAgent` (lines 346-419): a set of desired
goods plus a cardinality (`total_value = len(desired_goods)` is the field
`total_value` below). -/
structure BinaryAgent where
  desired_goods : Finset ℕ
  cardinality : ℕ
deriving DecidableEq

def BinaryAgent.total_value (a : BinaryAgent) : ℕ := a.desired_goods.card

/-- agents.py `BinaryAgent.value` (lines 384-403): the size of the
intersection of the desired goods with the given goods. -/
def BinaryAgent.value (a : BinaryAgent) (goods : Finset ℕ) : ℕ :=
  (a.desired_goods ∩ goods).card

/-- agents.py `BinaryAgent.value_except_best_c_goods` (lines 407-409):
`0` if `len(bundle) <= c`, else `value(bundle) - c`. -/
def BinaryAgent.value_except_best_c_goods (a : BinaryAgent)
    (bundle : Finset ℕ) (c : ℕ) : ℤ :=
  if bundle.card ≤ c then 0 else (a.value bundle : ℤ) - c

/-- agents.py `BinaryAgent.value_except_worst_c_goods` (lines 411-413):
identical closed form to the best-c variant. -/
def BinaryAgent.value_except_worst_c_goods (a : BinaryAgent)
    (bundle : Finset ℕ) (c : ℕ) : ℤ :=
  if bundle.card ≤ c then 0 else (a.value bundle : ℤ) - c

/-- Embedding of agents.py `MonotoneAgent` (lines 183-232): an explicit table
from bundles to integer values (a Python dict, modelled as an association
list queried by `find?`). The constructor's normalization
`map_bundle_to_value[frozenset()] = 0` is applied in `value` below. -/
structure MonotoneAgent where
  map_bundle_to_value : List (Finset ℕ × ℤ)
  cardinality : ℕ

/-- agents.py `MonotoneAgent.value` (lines 221-229): dict lookup; the
constructor stored value 0 for the empty bundle, and a bundle absent from
the table raises `ValueError`, modelled as `none`. -/
def MonotoneAgent.value (a : MonotoneAgent) (goods : Finset ℕ) : Option ℤ :=
  if goods = ∅ then some 0
  else (a.map_bundle_to_value.find? (fun p => p.1 == goods)).map (·.2)

/-- agents.py `Agent.value_except_best_c_goods` (lines 34-56), the base-class
version inherited by `MonotoneAgent`, generic in the (possibly failing)
valuation: `0` when `len(bundle) <= c`, otherwise the `min` over all
exactly-c-element subsets `G` of the bundle (`itertools.combinations`) of
`value(bundle - G)`; an undefined valuation raises, modelled as `none`. -/
def Agent.value_except_best_c_goods (value : Finset ℕ → Option ℤ)
    (bundle : Finset ℕ) (c : ℕ) : Option ℤ :=
  if bundle.card ≤ c then some 0
  else ((List.sublistsLen c (sortedGoods bundle)).mapM fun G =>
    value (bundle \ G.toFinset)).bind List.min?

/-- agents.py `Agent.value_except_worst_c_goods` (lines 58-74): the symmetric
maximization. -/
def Agent.value_except_worst_c_goods (value : Finset ℕ → Option ℤ)
    (bundle : Finset ℕ) (c : ℕ) : Option ℤ :=
  if bundle.card ≤ c then some 0
  else ((List.sublistsLen c (sortedGoods bundle)).mapM fun G =>
    value (bundle \ G.toFinset)).bind List.max?

def MonotoneAgent.value_except_best_c_goods (a : MonotoneAgent)
    (bundle : Finset ℕ) (c : ℕ) : Option ℤ :=
  Agent.value_except_best_c_goods a.value bundle c

def MonotoneAgent.value_except_worst_c_goods (a : MonotoneAgent)
    (bundle : Finset ℕ) (c : ℕ) : Option ℤ :=
  Agent.value_except_worst_c_goods a.value bundle c

/-- Embedding of agents.py `AdditiveAgent` (lines 237-342): a per-good weight
dict. -/
structure AdditiveAgent where
  map_good_to_value : List (ℕ × ℤ)
  cardinality : ℕ

/-- agents.py `AdditiveAgent.value` (lines 285-289) on a list of goods:
the sum of the per-good weights (`sum([self.map_good_to_value[g] for g in
goods])`); a good missing from the dict raises `KeyError`, modelled as
`none`. The source iterates sets and lists alike; set iteration is modelled
by the sorted list of the set's elements. -/
def AdditiveAgent.valueL (a : AdditiveAgent) (goods : List ℕ) : Option ℤ :=
  (goods.mapM fun g => a.map_good_to_value.lookup g).map List.sum

def AdditiveAgent.value (a : AdditiveAgent) (goods : Finset ℕ) : Option ℤ :=
  a.valueL (sortedGoods goods)

/-- agents.py `AdditiveAgent.value_except_best_c_goods` (lines 291-315):
`0` when `len(bundle) <= c`; otherwise sort the bundle's goods from best to
worst by weight (a stable sort; ties are iteration-order-dependent in the
source and resolved here by the canonical ascending-good pre-ordering),
drop the first c, and value the remainder. -/
def AdditiveAgent.value_except_best_c_goods (a : AdditiveAgent)
    (bundle : Finset ℕ) (c : ℕ) : Option ℤ :=
  if bundle.card ≤ c then some 0
  else ((sortedGoods bundle).mapM fun g =>
      (a.map_good_to_value.lookup g).map fun v => (g, v)).bind fun keyed =>
    let sorted_bundle :=
      (keyed.insertionSort fun p q => q.2 ≤ p.2).map (·.1)
    a.valueL (sorted_bundle.drop c)

/-- agents.py `AdditiveAgent.value_except_worst_c_goods` (lines 317-339):
sort from worst to best, drop the first c, value the remainder. -/
def AdditiveAgent.value_except_worst_c_goods (a : AdditiveAgent)
    (bundle : Finset ℕ) (c : ℕ) : Option ℤ :=
  if bundle.card ≤ c then some 0
  else ((sortedGoods bundle).mapM fun g =>
      (a.map_good_to_value.lookup g).map fun v => (g, v)).bind fun keyed =>
    let sorted_bundle :=
      (keyed.insertionSort fun p q => p.2 ≤ q.2).map (·.1)
    a.valueL (sorted_bundle.drop c)

/-- The canonical per-good weight of an additive agent (the dict value, with
an irrelevant default for missing goods); used to state theorems about
agents whose dict covers the bundles involved. -/
def AdditiveAgent.w (a : AdditiveAgent) (g : ℕ) : ℤ :=
  (a.map_good_to_value.lookup g).getD 0

/-! ## Definitions: families and the allocation protocols
(rwav_protocol.py, monotone_families.py; the `Family`/`BinaryFamily`
aggregation objects live in families.py, which is not among the analysed
sources, so they are modelled from the spec) -/

/-- Modelled from the spec: the external `Family` collaborator used by
rwav_protocol.py (families.py is missing from the sources). Spec §6: an
ordered list of members with a fairness criterion; the criterion
(`FairnessCriterion.target_value_for_binary`) maps a member's total value to
its numeric target share. -/
structure Family where
  members : List BinaryAgent
  fairness_criterion : ℕ → ℤ

/-- The setup step of rwav_protocol.py `allocate` (lines 35-37): each
member's `target_value` is its family's criterion applied to the member's
`total_value` (the mutation of the member object is modelled by pairing). -/
def Family.targeted (f : Family) : List (BinaryAgent × ℤ) :=
  f.members.map fun m => (m, f.fairness_criterion m.total_value)

/-- Modelled from the spec: the external `BinaryFamily` collaborator used by
monotone_families.py (families.py is missing from the sources). Spec §3/§6:
an ordered list of (member, target-share) pairs. -/
structure BinaryFamily where
  members : List (BinaryAgent × ℤ)

/-- Modelled from the spec: `Family.num_of_members()` with no predicate --
the total member count (cardinality-weighted, since one agent record stands
for `cardinality` identical members). -/
def BinaryFamily.num_of_members (f : BinaryFamily) : ℕ :=
  (f.members.map fun mp => mp.1.cardinality).sum

/-- Modelled from the spec: `Family.num_of_members_who_want(good)` -- the
number of members that desire the given good. -/
def BinaryFamily.num_of_members_who_want (f : BinaryFamily) (g : ℕ) : ℕ :=
  (f.members.map fun mp =>
    if g ∈ mp.1.desired_goods then mp.1.cardinality else 0).sum

/-- Modelled from the spec: `Family.num_of_members(predicate)` -- the number
of members satisfying the predicate. -/
def BinaryFamily.num_of_members_with (f : BinaryFamily)
    (pred : BinaryAgent → Bool) : ℕ :=
  (f.members.map fun mp => if pred mp.1 then mp.1.cardinality else 0).sum

/-- Embedding of rwav_protocol.py `member_weight` (lines 96-117):
`weight(member.value(remaining_goods), target_value - member.value(owned_goods),
num_of_families)`, propagating a raise as `none`. -/
def member_weight (member : BinaryAgent) (target_value : ℤ)
    (owned_goods remaining_goods : Finset ℕ) (num_of_families : ℤ) :
    Option ℚ :=
  weightK (member.value remaining_goods)
    (target_value - member.value owned_goods) num_of_families

/-- The `min(remaining_goods, key=lambda good: (-weight[good], good))` of
rwav_protocol.py line 92: the good with maximum accumulated weight, ties
broken by the smaller good. The key is injective in the good, so the result
is independent of the iteration order; it is computed here by a fold over
the goods listed in ascending order. Defaults to 0 on an empty list (Python
`min` would raise there; never reached: callers pass a nonempty list). -/
def argmin_good (w : ℕ → ℚ) : List ℕ → ℕ
  | [] => 0
  | g :: gs => gs.foldl (fun best g2 =>
      if w g2 > w best ∨ (w g2 = w best ∧ g2 < best) then g2 else best) g

/-- Embedding of rwav_protocol.py `choose_good` (lines 67-93). It reads only
the acting family's members and their target values, passed here directly as
pairs: each member contributes `member_weight * cardinality` to every good in
its desired set, and the remaining good with the maximum total weight is
chosen (ties to the smaller good). A raise inside any member's weight
computation aborts the call (`none`). -/
def choose_good (members : List (BinaryAgent × ℤ))
    (owned_goods remaining_goods : Finset ℕ) (num_of_families : ℤ) :
    Option ℕ :=
  (members.mapM fun mt =>
    (member_weight mt.1 mt.2 owned_goods remaining_goods
      num_of_families).map
      fun w => (mt.1.desired_goods, w * (mt.1.cardinality : ℚ))).map
  fun contribs =>
    let map_good_to_total_weight : ℕ → ℚ := fun g =>
      (contribs.map fun dc => if g ∈ dc.1 then dc.2 else 0).sum
    argmin_good map_good_to_total_weight (sortedGoods remaining_goods)

/-- Embedding of the `while remaining_goods` loop of rwav_protocol.py
`allocate` (lines 44-55): the acting family (index `family_index`, advanced
modulo the family count each turn) picks one good via `choose_good`; the good
moves from `remaining_goods` to that family's bundle and `turn_index` is
incremented. Besides the bundles, the final `turn_index` (which the source
maintains, lines 44 and 54) is returned so that the turn count can be stated;
a raise inside `choose_good` aborts the run (`none`). `getD` stands in for
Python indexing (the index stays in range along every reachable call). -/
def allocate_loop (fams : List (List (BinaryAgent × ℤ)))
    (remaining_goods : Finset ℕ) (bundles : List (Finset ℕ))
    (turn_index family_index : ℕ) : Option (List (Finset ℕ) × ℕ) :=
  if h : remaining_goods.Nonempty then
    match hg : choose_good (fams.getD family_index [])
        (bundles.getD family_index ∅) remaining_goods
        (fams.length : ℤ) with
    | none => none
    | some g =>
        allocate_loop fams (remaining_goods.erase g)
          (bundles.set family_index
            (insert g (bundles.getD family_index ∅)))
          (turn_index + 1) ((family_index + 1) % fams.length)
  else some (bundles, turn_index)
termination_by remaining_goods.card
decreasing_by
  refine Finset.card_erase_lt_of_mem ?_
  have hg2 : ((fams.getD family_index []).mapM fun mt =>
      (member_weight mt.1 mt.2 (bundles.getD family_index ∅)
        remaining_goods (fams.length : ℤ)).map
        fun w => (mt.1.desired_goods, w * (mt.1.cardinality : ℚ))).map
      (fun contribs => argmin_good
        (fun gg => (contribs.map fun dc =>
          if gg ∈ dc.1 then dc.2 else 0).sum)
        (sortedGoods remaining_goods)) = some g := hg
  obtain ⟨contribs, -, hfn⟩ := Option.map_eq_some'.mp hg2
  have hga : argmin_good
      (fun gg => (contribs.map fun dc =>
        if gg ∈ dc.1 then dc.2 else 0).sum)
      (sortedGoods remaining_goods) = g := hfn
  obtain ⟨x, hx⟩ := h
  have hxmem : x ∈ sortedGoods remaining_goods := by
    simp only [sortedGoods, List.mem_filter, List.mem_range,
      decide_eq_true_eq]
    have h2 : x ≤ remaining_goods.sup id := Finset.le_sup (f := id) hx
    exact ⟨by omega, hx⟩
  have hfold : ∀ (w : ℕ → ℚ) (t : List ℕ) (b : ℕ),
      t.foldl (fun best g2 =>
        if w g2 > w best ∨ (w g2 = w best ∧ g2 < best) then g2
        else best) b ∈ b :: t := by
    intro w t
    induction t with
    | nil => simp
    | cons y ys ih =>
        intro b
        rw [List.foldl_cons]
        rcases List.mem_cons.mp (ih (if w y > w b ∨ (w y = w b ∧ y < b)
            then y else b)) with hh | hh
        · rw [hh]
          by_cases hc : w y > w b ∨ (w y = w b ∧ y < b) <;> simp [hc]
        · simp [hh]
  have hargmem : g ∈ sortedGoods remaining_goods := by
    obtain ⟨y, ys, hsg⟩ :=
      List.exists_cons_of_ne_nil (List.ne_nil_of_mem hxmem)
    rw [← hga, hsg]
    simp only [argmin_good]
    exact hfold _ ys y
  have := List.mem_filter.mp hargmem
  simpa using this.2

/-- Embedding of rwav_protocol.py `allocate` (lines 20-56): target values are
assigned from each family's fairness criterion, then the round-robin loop
runs with `turn_index = family_index = 0` on empty bundles. -/
def allocate (families : List Family) (goods : Finset ℕ) :
    Option (List (Finset ℕ) × ℕ) :=
  allocate_loop (families.map Family.targeted) goods
    (families.map fun _ => (∅ : Finset ℕ)) 0 0

/-- The `for g in goods` scan of monotone_families.py
`allocate_using_enhanced_RWAV` (lines 153-166), over the goods in the
canonical ascending iteration order: if at least `threshold * num_of_members`
members of family 1 want `g`, family 1 gets `{g}` and family 2 the rest;
`elif` the same check for family 2. When no good triggers, line 167 calls
`allocate_using_RWAV(families, goods)` -- a name that is defined nowhere in
the module, so the fallback raises `NameError` at runtime, modelled as
`none`. -/
def enhanced_scan (f1 f2 : BinaryFamily) (goods : Finset ℕ)
    (threshold : ℚ) : List ℕ → Option (Finset ℕ × Finset ℕ)
  | [] => none
  | g :: gs =>
      if (f1.num_of_members_who_want g : ℚ) ≥
          threshold * f1.num_of_members then
        some ({g}, goods.erase g)
      else if (f2.num_of_members_who_want g : ℚ) ≥
          threshold * f2.num_of_members then
        some (goods.erase g, {g})
      else enhanced_scan f1 f2 goods threshold gs

/-- Embedding of monotone_families.py `allocate_using_enhanced_RWAV`
(lines 123-168); a family count other than 2 raises, modelled as `none`. -/
def allocate_using_enhanced_RWAV (families : List BinaryFamily)
    (goods : Finset ℕ) (threshold : ℚ) : Option (Finset ℕ × Finset ℕ) :=
  match families with
  | [f1, f2] => enhanced_scan f1 f2 goods threshold (sortedGoods goods)
  | _ => none

/-- One conditional move of the first inner loop of monotone_families.py
`allocate_twothirds` (lines 196-203): move `g` from bundle 1 to bundle 2
when strictly more members of family 2 want `g` and hold nothing than
members of family 1 want `g` and hold exactly one desired good; the Bool
records the `change` flag. -/
def twothirds_move1 (f1 f2 : BinaryFamily)
    (st : (Finset ℕ × Finset ℕ) × Bool) (g : ℕ) :
    (Finset ℕ × Finset ℕ) × Bool :=
  let poor_in_2 := f2.num_of_members_with fun m =>
    decide (0 < m.value {g}) && decide (m.value st.1.2 = 0)
  let poor_in_1 := f1.num_of_members_with fun m =>
    decide (0 < m.value {g}) && decide (m.value st.1.1 = 1)
  if poor_in_2 > poor_in_1 then ((st.1.1.erase g, insert g st.1.2), true)
  else st

/-- One conditional move of the second inner loop of monotone_families.py
`allocate_twothirds` (lines 204-211): the symmetric move from bundle 2 to
bundle 1. -/
def twothirds_move2 (f1 f2 : BinaryFamily)
    (st : (Finset ℕ × Finset ℕ) × Bool) (g : ℕ) :
    (Finset ℕ × Finset ℕ) × Bool :=
  let poor_in_1 := f1.num_of_members_with fun m =>
    decide (0 < m.value {g}) && decide (m.value st.1.1 = 0)
  let poor_in_2 := f2.num_of_members_with fun m =>
    decide (0 < m.value {g}) && decide (m.value st.1.2 = 1)
  if poor_in_1 > poor_in_2 then ((insert g st.1.1, st.1.2.erase g), true)
  else st

/-- One iteration of the outer loop of `allocate_twothirds` (lines 192-213):
the first pass folds over a snapshot (`list(bundles[0])`) of bundle 1, the
second over a snapshot of the then-current bundle 2; the `change` flag starts
at `False`. Snapshots are iterated in the canonical ascending order. -/
def twothirds_iteration (f1 f2 : BinaryFamily) (st : Finset ℕ × Finset ℕ) :
    (Finset ℕ × Finset ℕ) × Bool :=
  let st1 := (sortedGoods st.1).foldl (twothirds_move1 f1 f2) (st, false)
  (sortedGoods st1.1.2).foldl (twothirds_move2 f1 f2) st1

/-- The outer `for iteration in range(num_of_iterations)` loop of
`allocate_twothirds`, with the early `if not change: break`. -/
def twothirds_loop (f1 f2 : BinaryFamily) :
    ℕ → Finset ℕ × Finset ℕ → Finset ℕ × Finset ℕ
  | 0, st => st
  | n + 1, st =>
      let res := twothirds_iteration f1 f2 st
      if res.2 = false then res.1
      else twothirds_loop f1 f2 n res.1

/-- Embedding of monotone_families.py `allocate_twothirds` (lines 171-214):
start from `[set(), goods]` and run at most `2 * (total member count)`
iterations of the local search; a family count other than 2 raises
(`none`). -/
def allocate_twothirds (families : List BinaryFamily) (goods : Finset ℕ) :
    Option (List (Finset ℕ)) :=
  match families with
  | [f1, f2] =>
      let num_of_members := f1.num_of_members + f2.num_of_members
      let st := twothirds_loop f1 f2 (2 * num_of_members) (∅, goods)
      some [st.1, st.2]
  | _ => none

/-- The union of a list of bundles. -/
def unionAll (l : List (Finset ℕ)) : Finset ℕ := l.foldr (· ∪ ·) ∅

/-! ## Theorems: the balance recurrence (claims C1, C7, C8) -/

theorem balance_of_nonpos {r s : ℤ} (h : s ≤ 0) : balance r s = 1 := by
  rw [balance]
  simp [h]

theorem balance_of_gt {r s : ℤ} (h0 : 0 < s) (h : r < s) : balance r s = 0 := by
  rw [balance]
  rw [if_neg (by omega), if_pos (by omega)]

theorem balance_rec {r s : ℤ} (h0 : 0 < s) (h : s ≤ r) :
    balance r s = min ((balance (r - 1) s + balance (r - 1) (s - 1)) / 2)
                      (balance (r - 2) (s - 1)) := by
  conv_lhs => rw [balance]
  rw [if_neg (by omega), if_neg (by omega)]

theorem balance_one_one : balance 1 1 = 1 / 2 := by
  rw [balance_rec (by norm_num) (by norm_num)]
  norm_num [balance_of_gt, balance_of_nonpos]

theorem balance_two_one : balance 2 1 = 3 / 4 := by
  rw [balance_rec (by norm_num) (by norm_num)]
  norm_num [balance_one_one, balance_of_nonpos]

theorem balance_two_two : balance 2 2 = 0 := by
  rw [balance_rec (by norm_num) (by norm_num)]
  norm_num [balance_one_one, balance_of_gt]

theorem balance_three_two : balance 3 2 = 3 / 8 := by
  rw [balance_rec (by norm_num) (by norm_num)]
  norm_num [balance_two_two, balance_two_one, balance_one_one]

theorem balance_bounds (r s : ℤ) : 0 ≤ balance r s ∧ balance r s ≤ 1 := by
  induction r, s using balance.induct with
  | case1 r s h =>
      rw [balance_of_nonpos h]; norm_num
  | case2 r s h1 h2 =>
      rw [balance_of_gt (by omega) (by omega)]; norm_num
  | case3 r s h1 h2 ih1 ih2 ih3 =>
      rw [balance_rec (by omega) (by omega)]
      refine ⟨le_min (by linarith [ih1.1, ih2.1]) ih3.1, ?_⟩
      exact le_trans (min_le_right _ _) ih3.2

/-- C1: for k=2 and all integers r and s, `balance` satisfies the recurrence
`balance(r,s)=1` if `s≤0`; `=0` if `s>r` (with `s>0`); otherwise
`min((balance(r-1,s)+balance(r-1,s-1))/2, balance(r-2,s-1))`; and in
particular `balance(0,0)=1`, `balance(1,1)=0.5`, `balance(1,0)=1`,
`balance(0,1)=0`, `balance(3,2)=0.375`. -/
theorem balance_recurrence_spec :
    (∀ r s : ℤ, s ≤ 0 → balance r s = 1) ∧
    (∀ r s : ℤ, 0 < s → r < s → balance r s = 0) ∧
    (∀ r s : ℤ, 0 < s → s ≤ r →
      balance r s = min ((balance (r - 1) s + balance (r - 1) (s - 1)) / 2)
                        (balance (r - 2) (s - 1))) ∧
    balance 0 0 = 1 ∧ balance 1 1 = 1 / 2 ∧ balance 1 0 = 1 ∧
    balance 0 1 = 0 ∧ balance 3 2 = 3 / 8 :=
  ⟨fun _ _ h => balance_of_nonpos h,
   fun _ _ h0 h => balance_of_gt h0 h,
   fun _ _ h0 h => balance_rec h0 h,
   balance_of_nonpos le_rfl,
   balance_one_one,
   balance_of_nonpos le_rfl,
   balance_of_gt one_pos one_pos,
   balance_three_two⟩

/-- Witness for C1: the first conjunct applied at a concrete input. -/
theorem balance_recurrence_spec_witness : balance 4 (-1) = 1 :=
  balance_recurrence_spec.1 4 (-1) (by norm_num)

/-- C7: for all integers r ≥ 0 and s ≥ 0 (with k=2), `balance r s` lies in
the closed interval [0, 1]. -/
theorem balance_mem_unit_interval (r s : ℤ) (hr : 0 ≤ r) (hs : 0 ≤ s) :
    0 ≤ balance r s ∧ balance r s ≤ 1 :=
  balance_bounds r s

/-- Witness for C7 at the concrete input r=3, s=2. -/
theorem balance_mem_unit_interval_witness :
    0 ≤ balance 3 2 ∧ balance 3 2 ≤ 1 :=
  balance_mem_unit_interval 3 2 (by norm_num) (by norm_num)

/-- C8 counterexample: with k=3 > 2 and s=2 > 1 but s > r (r=0), the source's
base case `if s>r: return 0` fires before the `k>2` check ever runs, so the
call returns the numeric value 0 instead of raising; the claim's "every
integer r" is therefore false. -/
theorem balanceK_claim_counterexample :
    balanceK 0 2 3 = .val 0 ∧ balanceK 0 2 3 ≠ .errUnsupported := by
  decide

/-- C8 amended: for k > 2 and s > 1, the call raises the unsupported-case
`ValueError` exactly when also s ≤ r; when s > r the earlier base case returns
the numeric value 0 instead. -/
theorem balanceK_unsupported (r s k : ℤ) (hk : 2 < k) (hs : 1 < s) :
    (s ≤ r → balanceK r s k = .errUnsupported) ∧
    (r < s → balanceK r s k = .val 0) := by
  constructor
  · intro hsr
    rw [balanceK]
    rw [if_neg (by omega), if_neg (by omega), if_neg (by omega),
        if_pos (by omega), if_pos (by omega)]
  · intro hrs
    rw [balanceK]
    rw [if_neg (by omega), if_pos (by omega)]

/-- Witness for C8's amended theorem at r=5, s=2, k=3. -/
theorem balanceK_unsupported_witness :
    balanceK 5 2 3 = .errUnsupported :=
  (balanceK_unsupported 5 2 3 (by norm_num) (by norm_num)).1 (by norm_num)

/-! ## Theorems: the partition enumerator (claims C4, C5) -/

theorem insert_first_into_each_length {α : Type} (first : α)
    (smaller : List (List α)) :
    (insert_first_into_each first smaller).length = smaller.length := by
  induction smaller with
  | nil => rfl
  | cons s rest ih => simp [insert_first_into_each, ih]

theorem mem_insert_first_into_each {α : Type} {first : α}
    {smaller : List (List α)} {p : List (List α)}
    (hp : p ∈ insert_first_into_each first smaller) :
    p.length = smaller.length ∧ p.flatten.Perm (first :: smaller.flatten) ∧
      ((∀ q ∈ smaller, q ≠ []) → ∀ q ∈ p, q ≠ []) := by
  induction smaller generalizing p with
  | nil => simp [insert_first_into_each] at hp
  | cons s rest ih =>
      simp only [insert_first_into_each, List.mem_cons, List.mem_map] at hp
      rcases hp with rfl | ⟨q, hq, rfl⟩
      · refine ⟨by simp, ?_, ?_⟩
        · simp only [List.flatten_cons, List.cons_append]
          exact List.Perm.refl _
        · intro hne q hqmem
          rcases List.mem_cons.mp hqmem with rfl | hqr
          · simp
          · exact hne q (List.mem_cons_of_mem _ hqr)
      · obtain ⟨hlen, hperm, hne⟩ := ih hq
        refine ⟨by simp [hlen], ?_, ?_⟩
        · have hp2 : (s ++ q.flatten).Perm (s ++ (first :: rest.flatten)) :=
            hperm.append_left s
          have hp3 : (s ++ (first :: rest.flatten)).Perm
              (first :: (s ++ rest.flatten)) := List.perm_middle
          simpa using hp2.trans hp3
        · intro hall r hrmem
          rcases List.mem_cons.mp hrmem with rfl | hrq
          · exact hall r (List.mem_cons_self _ _)
          · exact hne (fun t ht => hall t (List.mem_cons_of_mem _ ht)) r hrq

theorem countP_insert_first_into_each {α : Type} (first : α)
    (smaller : List (List α)) (k : ℕ) :
    (insert_first_into_each first smaller).countP (fun p => p.length == k) =
      if smaller.length = k then smaller.length else 0 := by
  by_cases hk : smaller.length = k
  · rw [if_pos hk, ← insert_first_into_each_length first smaller]
    rw [List.countP_eq_length]
    intro p hp
    have := (mem_insert_first_into_each hp).1
    simp [this, hk]
  · rw [if_neg hk, List.countP_eq_zero]
    intro p hp
    have := (mem_insert_first_into_each hp).1
    simp [this, hk]

theorem sum_map_ite_countP {α : Type} (l : List α) (p : α → Bool) (c : ℕ) :
    (l.map fun a => if p a then c else 0).sum = c * l.countP p := by
  induction l with
  | nil => simp
  | cons a l ih =>
      by_cases h : p a <;>
        simp [List.countP_cons, h, ih, Nat.mul_add, Nat.add_comm]

theorem countP_flatMap {α β : Type} (l : List α) (f : α → List β)
    (p : β → Bool) :
    (l.flatMap f).countP p = (l.map fun a => (f a).countP p).sum := by
  induction l with
  | nil => rfl
  | cons a l ih => simp [List.flatMap_cons, List.countP_append, ih]

theorem sum_map_add_nat {α : Type} (l : List α) (f g : α → ℕ) :
    (l.map fun a => f a + g a).sum = (l.map f).sum + (l.map g).sum := by
  induction l with
  | nil => simp
  | cons a l ih => simp [ih]; omega

theorem length_le_flatten_length {α : Type} (p : List (List α))
    (h : ∀ q ∈ p, q ≠ []) : p.length ≤ p.flatten.length := by
  induction p with
  | nil => simp
  | cons q p ih =>
      have hq : 1 ≤ q.length :=
        List.length_pos.mpr (h q (List.mem_cons_self _ _))
      have hp := ih (fun r hr => h r (List.mem_cons_of_mem _ hr))
      simp only [List.length_cons, List.flatten_cons, List.length_append]
      omega

theorem length_eq_sum_countP {α : Type} (ps : List α) (f : α → ℕ) (m : ℕ)
    (hb : ∀ p ∈ ps, f p < m) :
    ps.length = ∑ k ∈ Finset.range m, ps.countP (fun p => f p == k) := by
  induction ps with
  | nil => simp
  | cons p ps ih =>
      have hp := hb p (List.mem_cons_self _ _)
      have ihh := ih (fun q hq => hb q (List.mem_cons_of_mem _ hq))
      simp only [List.countP_cons, List.length_cons]
      rw [Finset.sum_add_distrib, ← ihh]
      have hone : (∑ k ∈ Finset.range m,
          if (f p == k) = true then 1 else 0) = 1 := by
        simp only [beq_iff_eq]
        rw [Finset.sum_ite_eq (Finset.range m) (f p) (fun _ => 1)]
        simp [hp]
      omega

theorem stirling_one (k : ℕ) :
    stirling 1 k = if k = 1 then 1 else 0 := by
  match k with
  | 0 => rfl
  | 1 => rfl
  | k + 2 => simp [stirling]

theorem stirling_succ_zero (n : ℕ) : stirling (n + 1) 0 = 0 := rfl

/-- Main induction for the partition enumerator: on every nonempty input the
enumerator succeeds, the number of yielded partitions with exactly k parts is
the Stirling number S(n, k), and every yielded partition flattens to a
permutation of the input with all parts nonempty. -/
theorem partitions_spec_aux {α : Type} (l : List α) (hl : l ≠ []) :
    ∃ ps, partitions l = some ps ∧
      (∀ k : ℕ, ps.countP (fun p => p.length == k) = stirling l.length k) ∧
      (∀ p ∈ ps, p.flatten.Perm l ∧ ∀ q ∈ p, q ≠ []) := by
  induction l using partitions.induct with
  | case1 => exact absurd rfl hl
  | case2 x =>
      refine ⟨[[[x]]], rfl, ?_, ?_⟩
      · intro k
        have hlen : ([x] : List α).length = 1 := rfl
        rw [hlen, stirling_one]
        by_cases hk : k = 1 <;> simp [List.countP_cons, hk] <;> omega
      · intro p hp
        simp only [List.mem_singleton] at hp
        subst hp
        exact ⟨by simp, by simp⟩
  | case3 x y rest ih =>
      obtain ⟨qs, hqs, hcnt, hmem⟩ := ih (by simp)
      refine ⟨qs.flatMap fun smaller =>
          insert_first_into_each x smaller ++ [[x] :: smaller],
        by rw [partitions, hqs]; rfl, ?_, ?_⟩
      · intro k
        match k with
        | 0 =>
            have hzero : (qs.flatMap fun smaller =>
                insert_first_into_each x smaller ++
                  [[x] :: smaller]).countP
                  (fun p => p.length == 0) = 0 := by
              rw [List.countP_eq_zero]
              intro p hp
              rw [List.mem_flatMap] at hp
              obtain ⟨smaller, _, hpin⟩ := hp
              rcases List.mem_append.mp hpin with hins | hsing
              · have h1 := (mem_insert_first_into_each hins).1
                have h2 := (mem_insert_first_into_each hins).2.2
                -- every element of the insert branch keeps the part count;
                -- in fact every partition in the branch is nonempty because
                -- it contains the part holding `first`
                have : p ≠ [] := by
                  intro hempty
                  rw [hempty] at hins
                  clear h1 h2
                  induction smaller with
                  | nil => simp [insert_first_into_each] at hins
                  | cons s r ihr =>
                      simp [insert_first_into_each] at hins
                simp [List.length_eq_zero, this]
              · simp only [List.mem_singleton] at hsing
                subst hsing
                simp
            rw [hzero]
            have : (x :: y :: rest).length = (y :: rest).length + 1 := rfl
            rw [this, stirling_succ_zero]
        | k + 1 =>
            rw [countP_flatMap]
            have hmapeq : (qs.map fun smaller =>
                ((insert_first_into_each x smaller ++
                  [[x] :: smaller]).countP (fun p => p.length == k + 1))) =
                qs.map (fun smaller =>
                  (if (fun q : List (List α) => q.length == k + 1) smaller
                    then k + 1 else 0) +
                  (if (fun q : List (List α) => q.length == k) smaller
                    then 1 else 0)) := by
              apply List.map_congr_left
              intro smaller _
              rw [List.countP_append, countP_insert_first_into_each]
              by_cases h1 : smaller.length = k + 1 <;>
                by_cases h2 : smaller.length = k <;>
                  simp [List.countP_cons, h1, h2]
            rw [hmapeq, sum_map_add_nat, sum_map_ite_countP,
                sum_map_ite_countP, hcnt, hcnt, one_mul]
            have : (x :: y :: rest).length = (y :: rest).length + 1 := rfl
            rw [this, stirling]
      · intro p hp
        rw [List.mem_flatMap] at hp
        obtain ⟨smaller, hsm, hpin⟩ := hp
        obtain ⟨hperm, hne⟩ := hmem smaller hsm
        rcases List.mem_append.mp hpin with hins | hsing
        · obtain ⟨_, hp2, hp3⟩ := mem_insert_first_into_each hins
          exact ⟨hp2.trans (hperm.cons x), hp3 hne⟩
        · simp only [List.mem_singleton] at hsing
          subst hsing
          constructor
          · simpa using hperm.cons x
          · intro q hq
            rcases List.mem_cons.mp hq with rfl | hq2
            · simp
            · exact hne q hq2

/-- C5 (amended): for every NONEMPTY input list, `partitions` succeeds, yields
exactly B(n) partitions (n the input length), and every yielded partition
flattens to a permutation of the input (each input element occurs exactly once
across the parts); when the input has no duplicates the parts are moreover
pairwise disjoint. On the empty input the source raises `IndexError` instead
of yielding the single empty partition (see the counterexample). -/
theorem partitions_bell_spec {α : Type} (l : List α) (hl : l ≠ []) :
    ∃ ps, partitions l = some ps ∧ ps.length = bell l.length ∧
      ∀ p ∈ ps, p.flatten.Perm l ∧
        (l.Nodup → List.Pairwise List.Disjoint p) := by
  obtain ⟨ps, hps, hcnt, hmem⟩ := partitions_spec_aux l hl
  refine ⟨ps, hps, ?_, ?_⟩
  · have hbound : ∀ p ∈ ps, p.length < l.length + 1 := by
      intro p hp
      obtain ⟨hperm, hne⟩ := hmem p hp
      have h1 := length_le_flatten_length p hne
      have h2 := hperm.length_eq
      omega
    rw [length_eq_sum_countP ps (fun p => p.length) (l.length + 1) hbound]
    unfold bell
    exact Finset.sum_congr rfl fun k _ => hcnt k
  · intro p hp
    obtain ⟨hperm, hne⟩ := hmem p hp
    refine ⟨hperm, fun hnd => ?_⟩
    have : p.flatten.Nodup := (hperm.symm).nodup hnd
    exact (List.nodup_flatten.mp this).2

/-- Witness for C5's theorem at the concrete input [1, 2, 3]. -/
theorem partitions_bell_spec_witness :
    ∃ ps, partitions ([1, 2, 3] : List ℕ) = some ps ∧
      ps.length = bell 3 ∧
      ∀ p ∈ ps, p.flatten.Perm [1, 2, 3] ∧
        (([1, 2, 3] : List ℕ).Nodup → List.Pairwise List.Disjoint p) :=
  partitions_bell_spec [1, 2, 3] (by simp)

/-- C5 counterexample: on the empty (0-element) collection the source raises
`IndexError` (modelled as `none`) instead of yielding B(0) = 1 partitions. -/
theorem partitions_empty_counterexample :
    partitions ([] : List ℕ) = none ∧ bell 0 = 1 := by
  constructor
  · rfl
  · rfl

/-! ## Theorems: agents (claims C6, C9) -/

theorem mapM_eq_some_map {α β : Type} (f : α → Option β) (w : α → β)
    (l : List α) (h : ∀ a ∈ l, f a = some (w a)) :
    l.mapM f = some (l.map w) := by
  induction l with
  | nil => rfl
  | cons a l ih =>
      rw [List.mapM_cons, h a (List.mem_cons_self _ _),
        ih fun b hb => h b (List.mem_cons_of_mem _ hb)]
      rfl

theorem mem_sortedGoods {s : Finset ℕ} {g : ℕ} :
    g ∈ sortedGoods s ↔ g ∈ s := by
  simp only [sortedGoods, List.mem_filter, List.mem_range, decide_eq_true_eq]
  refine ⟨fun h => h.2, fun h => ⟨?_, h⟩⟩
  have h2 : g ≤ s.sup id := Finset.le_sup (f := id) h
  omega

theorem sortedGoods_nodup (s : Finset ℕ) : (sortedGoods s).Nodup :=
  (List.nodup_range _).filter _

theorem toFinset_sortedGoods (s : Finset ℕ) : (sortedGoods s).toFinset = s :=
  Finset.ext fun g => by simp [mem_sortedGoods]

theorem sortedGoods_length (s : Finset ℕ) :
    (sortedGoods s).length = s.card := by
  rw [← List.toFinset_card_of_nodup (sortedGoods_nodup s),
    toFinset_sortedGoods]

theorem sum_map_sortedGoods (s : Finset ℕ) (f : ℕ → ℤ) :
    ((sortedGoods s).map f).sum = s.sum f := by
  have hval : ((sortedGoods s : List ℕ) : Multiset ℕ) = s.val := by
    have h2 : (sortedGoods s).toFinset.val =
        ((sortedGoods s : List ℕ) : Multiset ℕ) := by
      rw [← List.toFinset_eq (sortedGoods_nodup s)]
    rw [toFinset_sortedGoods] at h2
    exact h2.symm
  rw [Finset.sum, ← Multiset.sum_coe, ← Multiset.map_coe, hval]

theorem sum_drop_le_sum (l : List ℤ) (h : ∀ x ∈ l, 0 ≤ x) (c : ℕ) :
    (l.drop c).sum ≤ l.sum := by
  conv_rhs => rw [← List.take_append_drop c l]
  rw [List.sum_append]
  have : 0 ≤ (l.take c).sum :=
    List.sum_nonneg fun x hx => h x (List.mem_of_mem_take hx)
  omega

theorem AdditiveAgent.valueL_eq (a : AdditiveAgent) (l : List ℕ)
    (h : ∀ g ∈ l, ∃ v, a.map_good_to_value.lookup g = some v) :
    a.valueL l = some (l.map a.w).sum := by
  have : l.mapM (fun g => a.map_good_to_value.lookup g) =
      some (l.map a.w) := by
    apply mapM_eq_some_map
    intro g hg
    obtain ⟨v, hv⟩ := h g hg
    rw [hv, AdditiveAgent.w, hv]
    rfl
  rw [AdditiveAgent.valueL, this]
  rfl

theorem AdditiveAgent.value_eq_sum (a : AdditiveAgent) (s : Finset ℕ)
    (h : ∀ g ∈ s, ∃ v, a.map_good_to_value.lookup g = some v) :
    a.value s = some (s.sum a.w) := by
  rw [AdditiveAgent.value,
    a.valueL_eq (sortedGoods s) fun g hg => h g (mem_sortedGoods.mp hg),
    sum_map_sortedGoods]

/-- The common core of both additive "except" computations: with every good
of the bundle in the dict with a nonnegative weight, the keyed-sort-drop
pipeline succeeds and its result is at most the full bundle value, for ANY
sorting relation. -/
theorem AdditiveAgent.sorted_drop_le (a : AdditiveAgent) (bundle : Finset ℕ)
    (hdom : ∀ g ∈ bundle, ∃ v,
      a.map_good_to_value.lookup g = some v ∧ 0 ≤ v)
    (le : ℕ × ℤ → ℕ × ℤ → Prop) [DecidableRel le] (c : ℕ) :
    ∃ vres,
      (((sortedGoods bundle).mapM fun g =>
          (a.map_good_to_value.lookup g).map fun v => (g, v)).bind
        fun keyed =>
          a.valueL (((keyed.insertionSort fun p q => le p q).map (·.1)).drop c))
        = some vres ∧
      a.value bundle = some (bundle.sum a.w) ∧ vres ≤ bundle.sum a.w := by
  have hdom1 : ∀ g ∈ bundle, ∃ v, a.map_good_to_value.lookup g = some v :=
    fun g hg => ⟨(hdom g hg).choose, (hdom g hg).choose_spec.1⟩
  have hkeyed : (sortedGoods bundle).mapM
      (fun g => (a.map_good_to_value.lookup g).map fun v => (g, v)) =
      some ((sortedGoods bundle).map fun g => (g, a.w g)) := by
    apply mapM_eq_some_map
    intro g hg
    obtain ⟨v, hv⟩ := hdom1 g (mem_sortedGoods.mp hg)
    rw [hv, AdditiveAgent.w, hv]
    rfl
  rw [hkeyed, Option.some_bind]
  set keyed := (sortedGoods bundle).map fun g => (g, a.w g) with hk
  set sorted := keyed.insertionSort fun p q => le p q with hs
  have hsortperm : sorted.Perm keyed := List.perm_insertionSort _ _
  have hmemgoods : ∀ g ∈ (sorted.map (·.1)).drop c, g ∈ bundle := by
    intro g hg
    have hg2 : g ∈ sorted.map (·.1) := List.mem_of_mem_drop hg
    obtain ⟨p, hp, rfl⟩ := List.mem_map.mp hg2
    have : p ∈ keyed := hsortperm.mem_iff.mp hp
    obtain ⟨g0, hg0, rfl⟩ := List.mem_map.mp this
    exact mem_sortedGoods.mp hg0
  have hval : a.valueL ((sorted.map (·.1)).drop c) =
      some (((sorted.map (·.1)).drop c).map a.w).sum :=
    a.valueL_eq _ fun g hg => hdom1 g (hmemgoods g hg)
  refine ⟨_, hval, a.value_eq_sum bundle hdom1, ?_⟩
  have hnn : ∀ x ∈ (sorted.map (·.1)).map a.w, 0 ≤ x := by
    intro x hx
    obtain ⟨g, hg, rfl⟩ := List.mem_map.mp hx
    have hgb : g ∈ bundle := by
      obtain ⟨p, hp, rfl⟩ := List.mem_map.mp hg
      have : p ∈ keyed := hsortperm.mem_iff.mp hp
      obtain ⟨g0, hg0, rfl⟩ := List.mem_map.mp this
      exact mem_sortedGoods.mp hg0
    obtain ⟨v, hv, hv0⟩ := hdom g hgb
    rw [AdditiveAgent.w, hv]
    exact hv0
  have hdropsum : (((sorted.map (·.1)).drop c).map a.w).sum ≤
      ((sorted.map (·.1)).map a.w).sum := by
    rw [List.map_drop]
    exact sum_drop_le_sum _ hnn c
  have hfullsum : ((sorted.map (·.1)).map a.w).sum = bundle.sum a.w := by
    have h1 : (((sorted.map (·.1)).map a.w)).sum =
        (((keyed.map (·.1)).map a.w)).sum :=
      ((hsortperm.map (·.1)).map a.w).sum_eq
    have h2 : keyed.map (·.1) = sortedGoods bundle := by
      rw [hk, List.map_map]
      have h3 : ∀ g ∈ sortedGoods bundle,
          ((fun x : ℕ × ℤ => x.1) ∘ fun g => (g, a.w g)) g = g :=
        fun g _ => rfl
      rw [List.map_congr_left h3, List.map_id']
    rw [h1, h2, sum_map_sortedGoods]
  omega

/-- C6 counterexample: for a binary agent desiring goods {0, 1}, the bundle
{0, 1} and c = 1, the code gives value = 2 but
value_except_worst_c_goods = 2 - 1 = 1, so the claimed inequality
`value(bundle) ≤ value_except_worst_c_goods(bundle, c)` is false (removing
the worst c goods can only lower the value of a monotone valuation). -/
theorem value_except_worst_counterexample :
    ¬ ((BinaryAgent.mk {0, 1} 1).value {0, 1} : ℤ) ≤
      (BinaryAgent.mk {0, 1} 1).value_except_worst_c_goods {0, 1} 1 := by
  decide

/-- C6 (amended): for every agent variant, every c ≥ 1 and every bundle with
|bundle| > c (with the definedness and monotonicity conditions that the
source assumes but does not enforce), BOTH derived quantities are at most
the full bundle value:
`value_except_best_c_goods(bundle,c) ≤ value(bundle)` and
`value_except_worst_c_goods(bundle,c) ≤ value(bundle)` (the claim's direction
`value(bundle) ≤ value_except_worst_c_goods(bundle,c)` is refuted by the
counterexample).
The three conjuncts cover the Binary closed form (unconditional), the
Additive sort-and-drop form (weights defined and nonnegative on the bundle),
and the Monotone brute-force form (value defined on the bundle and on the
c-element-removed sub-bundles, and the table monotone where defined). -/
theorem value_except_best_worst_le_value :
    (∀ (a : BinaryAgent) (bundle : Finset ℕ) (c : ℕ),
      1 ≤ c → c < bundle.card →
      a.value_except_best_c_goods bundle c ≤ (a.value bundle : ℤ) ∧
      a.value_except_worst_c_goods bundle c ≤ (a.value bundle : ℤ)) ∧
    (∀ (a : AdditiveAgent) (bundle : Finset ℕ) (c : ℕ),
      1 ≤ c → c < bundle.card →
      (∀ g ∈ bundle, ∃ v,
        a.map_good_to_value.lookup g = some v ∧ 0 ≤ v) →
      ∃ vb vbest vworst,
        a.value bundle = some vb ∧
        a.value_except_best_c_goods bundle c = some vbest ∧
        a.value_except_worst_c_goods bundle c = some vworst ∧
        vbest ≤ vb ∧ vworst ≤ vb) ∧
    (∀ (a : MonotoneAgent) (bundle : Finset ℕ) (c : ℕ) (vb : ℤ),
      1 ≤ c → c < bundle.card →
      a.value bundle = some vb →
      (∀ G : Finset ℕ, G ⊆ bundle → G.card = c →
        (a.value (bundle \ G)).isSome) →
      (∀ (A B : Finset ℕ) (vA vB : ℤ), A ⊆ B →
        a.value A = some vA → a.value B = some vB → vA ≤ vB) →
      ∃ vbest vworst,
        a.value_except_best_c_goods bundle c = some vbest ∧
        a.value_except_worst_c_goods bundle c = some vworst ∧
        vbest ≤ vb ∧ vworst ≤ vb) := by
  refine ⟨?_, ?_, ?_⟩
  · intro a bundle c hc hcard
    rw [BinaryAgent.value_except_best_c_goods,
      BinaryAgent.value_except_worst_c_goods,
      if_neg (by omega : ¬ bundle.card ≤ c)]
    omega
  · intro a bundle c hc hcard hdom
    obtain ⟨vbest, hbest, hvb, hble⟩ :=
      a.sorted_drop_le bundle hdom (fun p q => q.2 ≤ p.2) c
    obtain ⟨vworst, hworst, _, hwle⟩ :=
      a.sorted_drop_le bundle hdom (fun p q => p.2 ≤ q.2) c
    refine ⟨bundle.sum a.w, vbest, vworst, hvb, ?_, ?_, hble, hwle⟩
    · rw [AdditiveAgent.value_except_best_c_goods, if_neg (by omega)]
      exact hbest
    · rw [AdditiveAgent.value_except_worst_c_goods, if_neg (by omega)]
      exact hworst
  · intro a bundle c vb hc hcard hvb hdef hmono
    have hw : ∀ G ∈ List.sublistsLen c (sortedGoods bundle),
        a.value (bundle \ G.toFinset) =
          some ((a.value (bundle \ G.toFinset)).getD 0) := by
      intro G hG
      obtain ⟨hsub, hlen⟩ := List.mem_sublistsLen.mp hG
      have hnd : G.Nodup := hsub.nodup (sortedGoods_nodup bundle)
      have hGsub : G.toFinset ⊆ bundle := fun g hg =>
        mem_sortedGoods.mp (hsub.subset (List.mem_toFinset.mp hg))
      have hGcard : G.toFinset.card = c := by
        rw [List.toFinset_card_of_nodup hnd, hlen]
      have := hdef G.toFinset hGsub hGcard
      exact (Option.some_get this).symm.trans (by rw [Option.get_eq_getD])
    have hmapM : (List.sublistsLen c (sortedGoods bundle)).mapM
        (fun G => a.value (bundle \ G.toFinset)) =
        some ((List.sublistsLen c (sortedGoods bundle)).map
          fun G => (a.value (bundle \ G.toFinset)).getD 0) :=
      mapM_eq_some_map _ _ _ hw
    have hne : (List.sublistsLen c (sortedGoods bundle)).map
        (fun G => (a.value (bundle \ G.toFinset)).getD 0) ≠ [] := by
      have hlen : (List.sublistsLen c (sortedGoods bundle)).length =
          (sortedGoods bundle).length.choose c := List.length_sublistsLen ..
      have hpos : 0 < (sortedGoods bundle).length.choose c := by
        apply Nat.choose_pos
        rw [sortedGoods_length]
        omega
      intro hcontr
      rw [← List.length_eq_zero] at hcontr
      rw [List.length_map, hlen] at hcontr
      omega
    have hbd : ∀ m ∈ (List.sublistsLen c (sortedGoods bundle)).map
        (fun G => (a.value (bundle \ G.toFinset)).getD 0), m ≤ vb := by
      intro m hm
      obtain ⟨G, hG, rfl⟩ := List.mem_map.mp hm
      exact hmono (bundle \ G.toFinset) bundle _ vb
        (Finset.sdiff_subset) (hw G hG) hvb
    obtain ⟨mn, hmn⟩ := Option.ne_none_iff_exists.mp
      (fun h => hne (List.min?_eq_none_iff.mp h))
    obtain ⟨mx, hmx⟩ := Option.ne_none_iff_exists.mp
      (fun h => hne (List.max?_eq_none_iff.mp h))
    refine ⟨mn, mx, ?_, ?_, ?_, ?_⟩
    · rw [MonotoneAgent.value_except_best_c_goods,
        Agent.value_except_best_c_goods, if_neg (by omega), hmapM,
        Option.some_bind]
      exact hmn.symm
    · rw [MonotoneAgent.value_except_worst_c_goods,
        Agent.value_except_worst_c_goods, if_neg (by omega), hmapM,
        Option.some_bind]
      exact hmx.symm
    · exact hbd mn (List.min?_mem min_choice hmn.symm)
    · exact hbd mx (List.max?_mem max_choice hmx.symm)

/-- Witness for C6's amended theorem: the Binary conjunct at the agent
desiring {0, 1, 2} with bundle {0, 1, 2} and c = 1. -/
theorem value_except_best_worst_le_value_witness :
    (BinaryAgent.mk {0, 1, 2} 1).value_except_best_c_goods {0, 1, 2} 1 ≤
      ((BinaryAgent.mk {0, 1, 2} 1).value {0, 1, 2} : ℤ) ∧
    (BinaryAgent.mk {0, 1, 2} 1).value_except_worst_c_goods {0, 1, 2} 1 ≤
      ((BinaryAgent.mk {0, 1, 2} 1).value {0, 1, 2} : ℤ) :=
  value_except_best_worst_le_value.1 (BinaryAgent.mk {0, 1, 2} 1)
    {0, 1, 2} 1 (by norm_num) (by decide)

/-- C9 counterexample: both a constructible MonotoneAgent with a
non-monotone table and a constructible AdditiveAgent with a negative weight
violate `A ⊆ B → value(A) ≤ value(B)`; neither constructor checks the
monotonicity assumption. -/
theorem value_monotone_counterexample :
    ((MonotoneAgent.mk [({0}, 5), ({0, 1}, 3)] 1).value {0} = some 5 ∧
     (MonotoneAgent.mk [({0}, 5), ({0, 1}, 3)] 1).value {0, 1} = some 3 ∧
     ({0} : Finset ℕ) ⊆ {0, 1} ∧ ¬ ((5 : ℤ) ≤ 3)) ∧
    ((AdditiveAgent.mk [(0, -1)] 1).value ∅ = some 0 ∧
     (AdditiveAgent.mk [(0, -1)] 1).value {0} = some (-1) ∧
     (∅ : Finset ℕ) ⊆ {0} ∧ ¬ ((0 : ℤ) ≤ -1)) := by
  decide

/-- C9 (amended): value is monotone non-decreasing for every constructible
Binary agent, and for every Additive agent on bundles inside its weight dict
whenever the weights are nonnegative; for Monotone (and for Additive with
negative weights) the constructor does not enforce the assumption and a
constructible agent violates monotonicity (see the counterexample). -/
theorem value_monotone_spec :
    (∀ (a : BinaryAgent) (A B : Finset ℕ), A ⊆ B →
      a.value A ≤ a.value B) ∧
    (∀ (a : AdditiveAgent) (A B : Finset ℕ), A ⊆ B →
      (∀ g ∈ B, ∃ v, a.map_good_to_value.lookup g = some v ∧ 0 ≤ v) →
      ∃ vA vB, a.value A = some vA ∧ a.value B = some vB ∧ vA ≤ vB) := by
  constructor
  · intro a A B hAB
    exact Finset.card_le_card
      (Finset.inter_subset_inter (Finset.Subset.refl _) hAB)
  · intro a A B hAB hdom
    have hdomA : ∀ g ∈ A, ∃ v, a.map_good_to_value.lookup g = some v :=
      fun g hg => ⟨(hdom g (hAB hg)).choose, (hdom g (hAB hg)).choose_spec.1⟩
    have hdomB : ∀ g ∈ B, ∃ v, a.map_good_to_value.lookup g = some v :=
      fun g hg => ⟨(hdom g hg).choose, (hdom g hg).choose_spec.1⟩
    refine ⟨A.sum a.w, B.sum a.w, a.value_eq_sum A hdomA,
      a.value_eq_sum B hdomB, ?_⟩
    apply Finset.sum_le_sum_of_subset_of_nonneg hAB
    intro g hg _
    obtain ⟨v, hv, hv0⟩ := hdom g hg
    rw [AdditiveAgent.w, hv]
    exact hv0

/-- Witness for C9's amended theorem: the Binary conjunct at a concrete
agent and bundles. -/
theorem value_monotone_spec_witness :
    (BinaryAgent.mk {0, 1} 1).value {0} ≤
      (BinaryAgent.mk {0, 1} 1).value {0, 1} :=
  value_monotone_spec.1 (BinaryAgent.mk {0, 1} 1) {0} {0, 1} (by decide)

/-- C4 (code bug): evaluating `partitions_to_at_most_c([1,2,3], c=1)` at the
failing input. The docstring promises only partitions with at most 1 part,
but because the recursion enumerates the UNRESTRICTED partitions of the tail
and prunes only the top-level new-singleton branch, the two 2-part partitions
[[1,2],[3]] and [[2],[1,3]] are also yielded. -/
theorem partitions_to_at_most_c_failing :
    partitions_to_at_most_c ([1, 2, 3] : List ℕ) 1 =
      some [[[1, 2, 3]], [[1, 2], [3]], [[2], [1, 3]]] ∧
    ¬ ([[1, 2], [3]] : List (List ℕ)).length ≤ 1 := by
  decide

/-! ## Theorems: the allocation protocols (claims C2, C3, C10) -/

theorem argmin_good_mem (w : ℕ → ℚ) (l : List ℕ) (hl : l ≠ []) :
    argmin_good w l ∈ l := by
  match l with
  | [] => exact absurd rfl hl
  | g :: gs =>
      rw [argmin_good]
      have hfold : ∀ (t : List ℕ) (b : ℕ),
          t.foldl (fun best g2 =>
            if w g2 > w best ∨ (w g2 = w best ∧ g2 < best) then g2
            else best) b ∈ b :: t := by
        intro t
        induction t with
        | nil => simp
        | cons x xs ih =>
            intro b
            rw [List.foldl_cons]
            rcases List.mem_cons.mp (ih (if w x > w b ∨ (w x = w b ∧ x < b)
                then x else b)) with h | h
            · rw [h]
              by_cases hc : w x > w b ∨ (w x = w b ∧ x < b) <;>
                simp [hc]
            · simp [h]
      exact hfold gs g

theorem sortedGoods_ne_nil {s : Finset ℕ} (h : s.Nonempty) :
    sortedGoods s ≠ [] := by
  obtain ⟨x, hx⟩ := h
  exact List.ne_nil_of_mem (mem_sortedGoods.mpr hx)

theorem choose_good_mem {members : List (BinaryAgent × ℤ)}
    {owned_goods remaining_goods : Finset ℕ} {k : ℤ} {g : ℕ}
    (hne : remaining_goods.Nonempty)
    (h : choose_good members owned_goods remaining_goods k = some g) :
    g ∈ remaining_goods := by
  rw [choose_good] at h
  obtain ⟨contribs, -, hfn⟩ := Option.map_eq_some'.mp h
  rw [← hfn]
  exact mem_sortedGoods.mp
    (argmin_good_mem _ _ (sortedGoods_ne_nil hne))

theorem enhanced_scan_swap (f1 f2 : BinaryFamily) (goods : Finset ℕ)
    (threshold : ℚ) (l : List ℕ)
    (h : ∀ g ∈ l,
      ¬ ((f1.num_of_members_who_want g : ℚ) ≥
           threshold * f1.num_of_members ∧
         (f2.num_of_members_who_want g : ℚ) ≥
           threshold * f2.num_of_members)) :
    enhanced_scan f2 f1 goods threshold l =
      (enhanced_scan f1 f2 goods threshold l).map Prod.swap := by
  induction l with
  | nil => rfl
  | cons g gs ih =>
      have hg := h g (List.mem_cons_self _ _)
      rw [enhanced_scan, enhanced_scan]
      by_cases t1 : (f1.num_of_members_who_want g : ℚ) ≥
          threshold * f1.num_of_members
      · have t2 : ¬ (f2.num_of_members_who_want g : ℚ) ≥
            threshold * f2.num_of_members := fun t2 => hg ⟨t1, t2⟩
        rw [if_neg t2, if_pos t1, if_pos t1]
        rfl
      · by_cases t2 : (f2.num_of_members_who_want g : ℚ) ≥
            threshold * f2.num_of_members
        · rw [if_pos t2, if_neg t1, if_pos t2]
          rfl
        · rw [if_neg t2, if_neg t1, if_neg t1, if_neg t2]
          exact ih fun x hx => h x (List.mem_cons_of_mem _ hx)

/-- C3 counterexample: two one-member families, A desiring goods {0, 1} and
B desiring good {0}, goods {0, 1}, threshold 1/2. Good 0 meets BOTH
thresholds, so whichever family is passed first wins it: with [A, B] family A
gets {0}, with [B, A] family B gets {0}; the per-family bundles differ, so
Enhanced RWAV is not role-symmetric as claimed. -/
theorem enhanced_RWAV_not_symmetric :
    allocate_using_enhanced_RWAV
        [BinaryFamily.mk [(BinaryAgent.mk {0, 1} 1, 0)],
         BinaryFamily.mk [(BinaryAgent.mk {0} 1, 0)]] {0, 1} (1 / 2) =
      some ({0}, {1}) ∧
    allocate_using_enhanced_RWAV
        [BinaryFamily.mk [(BinaryAgent.mk {0} 1, 0)],
         BinaryFamily.mk [(BinaryAgent.mk {0, 1} 1, 0)]] {0, 1} (1 / 2) =
      some ({0}, {1}) ∧
    allocate_using_enhanced_RWAV
        [BinaryFamily.mk [(BinaryAgent.mk {0} 1, 0)],
         BinaryFamily.mk [(BinaryAgent.mk {0, 1} 1, 0)]] {0, 1} (1 / 2) ≠
      (allocate_using_enhanced_RWAV
        [BinaryFamily.mk [(BinaryAgent.mk {0, 1} 1, 0)],
         BinaryFamily.mk [(BinaryAgent.mk {0} 1, 0)]] {0, 1}
        (1 / 2)).map Prod.swap := by
  have hsg : sortedGoods ({0, 1} : Finset ℕ) = [0, 1] := by decide
  have h1 : allocate_using_enhanced_RWAV
      [BinaryFamily.mk [(BinaryAgent.mk {0, 1} 1, 0)],
       BinaryFamily.mk [(BinaryAgent.mk {0} 1, 0)]] {0, 1} (1 / 2) =
      some ({0}, {1}) := by
    show enhanced_scan (BinaryFamily.mk [(BinaryAgent.mk {0, 1} 1, 0)])
      (BinaryFamily.mk [(BinaryAgent.mk {0} 1, 0)]) {0, 1} (1 / 2)
      (sortedGoods {0, 1}) = some ({0}, {1})
    rw [hsg, enhanced_scan, if_pos]
    · show some ({0}, Finset.erase {0, 1} 0) = some ({0}, {1})
      decide
    · rw [show (BinaryFamily.mk
          [(BinaryAgent.mk {0, 1} 1, 0)]).num_of_members_who_want 0 = 1
          from by decide,
        show (BinaryFamily.mk
          [(BinaryAgent.mk {0, 1} 1, 0)]).num_of_members = 1 from by decide]
      norm_num
  have h2 : allocate_using_enhanced_RWAV
      [BinaryFamily.mk [(BinaryAgent.mk {0} 1, 0)],
       BinaryFamily.mk [(BinaryAgent.mk {0, 1} 1, 0)]] {0, 1} (1 / 2) =
      some ({0}, {1}) := by
    show enhanced_scan (BinaryFamily.mk [(BinaryAgent.mk {0} 1, 0)])
      (BinaryFamily.mk [(BinaryAgent.mk {0, 1} 1, 0)]) {0, 1} (1 / 2)
      (sortedGoods {0, 1}) = some ({0}, {1})
    rw [hsg, enhanced_scan, if_pos]
    · show some ({0}, Finset.erase {0, 1} 0) = some ({0}, {1})
      decide
    · rw [show (BinaryFamily.mk
          [(BinaryAgent.mk {0} 1, 0)]).num_of_members_who_want 0 = 1
          from by decide,
        show (BinaryFamily.mk
          [(BinaryAgent.mk {0} 1, 0)]).num_of_members = 1 from by decide]
      norm_num
  refine ⟨h1, h2, ?_⟩
  rw [h1, h2]
  decide

/-- C3 (amended): Enhanced RWAV is role-symmetric PROVIDED no single good
meets both families' thresholds: swapping the two families' argument order
swaps the two result bundles, so each family receives the same bundle
(including the no-trigger case, where both orders fail identically on the
undefined fallback name). When some good meets both thresholds the first
family passed wins it and symmetry fails (see the counterexample). -/
theorem enhanced_RWAV_role_symmetric (f1 f2 : BinaryFamily)
    (goods : Finset ℕ) (threshold : ℚ)
    (h : ∀ g ∈ goods,
      ¬ ((f1.num_of_members_who_want g : ℚ) ≥
           threshold * f1.num_of_members ∧
         (f2.num_of_members_who_want g : ℚ) ≥
           threshold * f2.num_of_members)) :
    allocate_using_enhanced_RWAV [f2, f1] goods threshold =
      (allocate_using_enhanced_RWAV [f1, f2] goods threshold).map
        Prod.swap := by
  show enhanced_scan f2 f1 goods threshold (sortedGoods goods) =
    (enhanced_scan f1 f2 goods threshold (sortedGoods goods)).map Prod.swap
  exact enhanced_scan_swap f1 f2 goods threshold _
    fun g hg => h g (mem_sortedGoods.mp hg)

/-- Witness for C3's amended theorem: one-member families desiring the
disjoint sets {0} and {1} with threshold 1 -- each good triggers at most one
family. -/
theorem enhanced_RWAV_role_symmetric_witness :
    allocate_using_enhanced_RWAV
        [BinaryFamily.mk [(BinaryAgent.mk {1} 1, 0)],
         BinaryFamily.mk [(BinaryAgent.mk {0} 1, 0)]] {0, 1} 1 =
      (allocate_using_enhanced_RWAV
        [BinaryFamily.mk [(BinaryAgent.mk {0} 1, 0)],
         BinaryFamily.mk [(BinaryAgent.mk {1} 1, 0)]] {0, 1} 1).map
        Prod.swap :=
  enhanced_RWAV_role_symmetric
    (BinaryFamily.mk [(BinaryAgent.mk {0} 1, 0)])
    (BinaryFamily.mk [(BinaryAgent.mk {1} 1, 0)]) {0, 1} 1 (by
      intro g hg
      fin_cases hg
      · rintro ⟨-, h2⟩
        rw [show (BinaryFamily.mk
            [(BinaryAgent.mk {1} 1, 0)]).num_of_members_who_want 0 = 0
            from by decide,
          show (BinaryFamily.mk
            [(BinaryAgent.mk {1} 1, 0)]).num_of_members = 1
            from by decide] at h2
        norm_num at h2
      · rintro ⟨h1, -⟩
        rw [show (BinaryFamily.mk
            [(BinaryAgent.mk {0} 1, 0)]).num_of_members_who_want 1 = 0
            from by decide,
          show (BinaryFamily.mk
            [(BinaryAgent.mk {0} 1, 0)]).num_of_members = 1
            from by decide] at h1
        norm_num at h1)

theorem erase_insert_invariant {b1 b2 goods : Finset ℕ} {g : ℕ}
    (hg : g ∈ goods) (hd : Disjoint b1 b2) (hu : b1 ∪ b2 = goods) :
    Disjoint (b1.erase g) (insert g b2) ∧
      b1.erase g ∪ insert g b2 = goods := by
  constructor
  · rw [Finset.disjoint_left]
    intro x hx hx2
    rw [Finset.mem_erase] at hx
    rcases Finset.mem_insert.mp hx2 with rfl | hxb2
    · exact hx.1 rfl
    · exact (Finset.disjoint_left.mp hd hx.2) hxb2
  · ext x
    simp only [Finset.mem_union, Finset.mem_erase, Finset.mem_insert]
    constructor
    · rintro (⟨hne, hx⟩ | rfl | hx)
      · rw [← hu]; exact Finset.mem_union_left _ hx
      · exact hg
      · rw [← hu]; exact Finset.mem_union_right _ hx
    · intro hx
      by_cases hxg : x = g
      · subst hxg; right; left; rfl
      · rw [← hu] at hx
        rcases Finset.mem_union.mp hx with hx1 | hx2
        · left; exact ⟨hxg, hx1⟩
        · right; right; exact hx2

theorem twothirds_move1_invariant (f1 f2 : BinaryFamily) (goods : Finset ℕ)
    (st : (Finset ℕ × Finset ℕ) × Bool) (g : ℕ) (hg : g ∈ goods)
    (hd : Disjoint st.1.1 st.1.2) (hu : st.1.1 ∪ st.1.2 = goods) :
    Disjoint (twothirds_move1 f1 f2 st g).1.1
        (twothirds_move1 f1 f2 st g).1.2 ∧
      (twothirds_move1 f1 f2 st g).1.1 ∪
        (twothirds_move1 f1 f2 st g).1.2 = goods := by
  rw [twothirds_move1]
  split_ifs with hc
  · exact erase_insert_invariant hg hd hu
  · exact ⟨hd, hu⟩

theorem twothirds_move2_invariant (f1 f2 : BinaryFamily) (goods : Finset ℕ)
    (st : (Finset ℕ × Finset ℕ) × Bool) (g : ℕ) (hg : g ∈ goods)
    (hd : Disjoint st.1.1 st.1.2) (hu : st.1.1 ∪ st.1.2 = goods) :
    Disjoint (twothirds_move2 f1 f2 st g).1.1
        (twothirds_move2 f1 f2 st g).1.2 ∧
      (twothirds_move2 f1 f2 st g).1.1 ∪
        (twothirds_move2 f1 f2 st g).1.2 = goods := by
  rw [twothirds_move2]
  split_ifs with hc
  · obtain ⟨hd2, hu2⟩ := erase_insert_invariant hg hd.symm
      (by rw [Finset.union_comm]; exact hu)
    exact ⟨hd2.symm, by rw [Finset.union_comm]; exact hu2⟩
  · exact ⟨hd, hu⟩

theorem foldl_step_invariant (goods : Finset ℕ)
    (step : (Finset ℕ × Finset ℕ) × Bool → ℕ → (Finset ℕ × Finset ℕ) × Bool)
    (hstep : ∀ st g, g ∈ goods → Disjoint st.1.1 st.1.2 →
      st.1.1 ∪ st.1.2 = goods →
      Disjoint (step st g).1.1 (step st g).1.2 ∧
        (step st g).1.1 ∪ (step st g).1.2 = goods) :
    ∀ (l : List ℕ) (st : (Finset ℕ × Finset ℕ) × Bool),
      (∀ g ∈ l, g ∈ goods) → Disjoint st.1.1 st.1.2 →
      st.1.1 ∪ st.1.2 = goods →
      Disjoint (l.foldl step st).1.1 (l.foldl step st).1.2 ∧
        (l.foldl step st).1.1 ∪ (l.foldl step st).1.2 = goods := by
  intro l
  induction l with
  | nil => exact fun st _ hd hu => ⟨hd, hu⟩
  | cons g gs ih =>
      intro st hl hd hu
      rw [List.foldl_cons]
      obtain ⟨hd2, hu2⟩ := hstep st g (hl g (List.mem_cons_self _ _)) hd hu
      exact ih _ (fun x hx => hl x (List.mem_cons_of_mem _ hx)) hd2 hu2

theorem twothirds_iteration_invariant (f1 f2 : BinaryFamily)
    (goods : Finset ℕ) (st : Finset ℕ × Finset ℕ)
    (hd : Disjoint st.1 st.2) (hu : st.1 ∪ st.2 = goods) :
    Disjoint (twothirds_iteration f1 f2 st).1.1
        (twothirds_iteration f1 f2 st).1.2 ∧
      (twothirds_iteration f1 f2 st).1.1 ∪
        (twothirds_iteration f1 f2 st).1.2 = goods := by
  rw [twothirds_iteration]
  have h1 := foldl_step_invariant goods (twothirds_move1 f1 f2)
    (fun st2 g hg hd2 hu2 =>
      twothirds_move1_invariant f1 f2 goods st2 g hg hd2 hu2)
    (sortedGoods st.1) (st, false)
    (fun g hg => by
      have := mem_sortedGoods.mp hg
      rw [← hu]
      exact Finset.mem_union_left _ this)
    hd hu
  obtain ⟨hd1, hu1⟩ := h1
  exact foldl_step_invariant goods (twothirds_move2 f1 f2)
    (fun st2 g hg hd2 hu2 =>
      twothirds_move2_invariant f1 f2 goods st2 g hg hd2 hu2)
    _ _
    (fun g hg => by
      have := mem_sortedGoods.mp hg
      rw [← hu1]
      exact Finset.mem_union_right _ this)
    hd1 hu1

theorem twothirds_loop_invariant (f1 f2 : BinaryFamily) (goods : Finset ℕ) :
    ∀ (n : ℕ) (st : Finset ℕ × Finset ℕ),
      Disjoint st.1 st.2 → st.1 ∪ st.2 = goods →
      Disjoint (twothirds_loop f1 f2 n st).1
          (twothirds_loop f1 f2 n st).2 ∧
        (twothirds_loop f1 f2 n st).1 ∪
          (twothirds_loop f1 f2 n st).2 = goods := by
  intro n
  induction n with
  | zero => exact fun st hd hu => ⟨hd, hu⟩
  | succ m ih =>
      intro st hd hu
      rw [twothirds_loop]
      obtain ⟨hd2, hu2⟩ := twothirds_iteration_invariant f1 f2 goods st hd hu
      split_ifs with hc
      · exact ⟨hd2, hu2⟩
      · exact ih _ hd2 hu2

/-- C10: `allocate_twothirds` on two families always returns exactly two
bundles that partition the goods set exactly (pairwise disjoint, union =
input), and the partition property is an invariant of every single-good
reassignment step of the local search (both move directions), regardless of
whether the loop stops early on a no-change iteration or exhausts its
`2 * (total member count)` bound. -/
theorem allocate_twothirds_partition :
    (∀ (f1 f2 : BinaryFamily) (goods : Finset ℕ)
       (st : (Finset ℕ × Finset ℕ) × Bool) (g : ℕ), g ∈ goods →
       Disjoint st.1.1 st.1.2 → st.1.1 ∪ st.1.2 = goods →
       (Disjoint (twothirds_move1 f1 f2 st g).1.1
           (twothirds_move1 f1 f2 st g).1.2 ∧
         (twothirds_move1 f1 f2 st g).1.1 ∪
           (twothirds_move1 f1 f2 st g).1.2 = goods) ∧
       (Disjoint (twothirds_move2 f1 f2 st g).1.1
           (twothirds_move2 f1 f2 st g).1.2 ∧
         (twothirds_move2 f1 f2 st g).1.1 ∪
           (twothirds_move2 f1 f2 st g).1.2 = goods)) ∧
    (∀ (families : List BinaryFamily) (goods : Finset ℕ),
       families.length = 2 →
       ∃ b1 b2, allocate_twothirds families goods = some [b1, b2] ∧
         Disjoint b1 b2 ∧ b1 ∪ b2 = goods) := by
  constructor
  · intro f1 f2 goods st g hg hd hu
    exact ⟨twothirds_move1_invariant f1 f2 goods st g hg hd hu,
      twothirds_move2_invariant f1 f2 goods st g hg hd hu⟩
  · intro families goods hlen
    obtain ⟨f1, f2, rfl⟩ := List.length_eq_two.mp hlen
    obtain ⟨hd, hu⟩ := twothirds_loop_invariant f1 f2 goods
      (2 * (f1.num_of_members + f2.num_of_members)) (∅, goods)
      (Finset.disjoint_empty_left _) (Finset.empty_union _)
    exact ⟨_, _, rfl, hd, hu⟩

/-- Witness for C10's theorem: the whole-protocol conjunct at two concrete
one-member families over the goods {0, 1}. -/
theorem allocate_twothirds_partition_witness :
    ∃ b1 b2, allocate_twothirds
        [BinaryFamily.mk [(BinaryAgent.mk {0} 1, 0)],
         BinaryFamily.mk [(BinaryAgent.mk {1} 1, 0)]] {0, 1} =
        some [b1, b2] ∧
      Disjoint b1 b2 ∧ b1 ∪ b2 = {0, 1} :=
  allocate_twothirds_partition.2
    [BinaryFamily.mk [(BinaryAgent.mk {0} 1, 0)],
     BinaryFamily.mk [(BinaryAgent.mk {1} 1, 0)]] {0, 1} rfl

theorem balanceK_two_val (r s : ℤ) : ∃ q, balanceK r s 2 = .val q := by
  rw [balanceK]
  split_ifs with h1 h2 h3 h4 h5 <;>
    first
      | exact ⟨_, rfl⟩
      | (exfalso; omega)

theorem weightK_two_isSome (r s : ℤ) : (weightK r s 2).isSome := by
  obtain ⟨a, ha⟩ := balanceK_two_val r s
  obtain ⟨b, hb⟩ := balanceK_two_val (r - 1) s
  rw [weightK, ha, hb]
  rfl

theorem mapM_isSome {α β : Type} (f : α → Option β) (l : List α)
    (h : ∀ a ∈ l, (f a).isSome) : (l.mapM f).isSome := by
  induction l with
  | nil => rfl
  | cons a l ih =>
      obtain ⟨b, hb⟩ := Option.isSome_iff_exists.mp
        (h a (List.mem_cons_self _ _))
      obtain ⟨bs, hbs⟩ := Option.isSome_iff_exists.mp
        (ih fun x hx => h x (List.mem_cons_of_mem _ hx))
      rw [List.mapM_cons, hb, hbs]
      rfl

theorem choose_good_isSome (members : List (BinaryAgent × ℤ))
    (owned rem : Finset ℕ) :
    (choose_good members owned rem 2).isSome := by
  rw [choose_good]
  have hmapM : (members.mapM fun mt =>
      (member_weight mt.1 mt.2 owned rem 2).map
        fun w => (mt.1.desired_goods, w * (mt.1.cardinality : ℚ))).isSome := by
    apply mapM_isSome
    intro mt _
    rw [member_weight]
    obtain ⟨q, hq⟩ := Option.isSome_iff_exists.mp
      (weightK_two_isSome (mt.1.value rem) (mt.2 - mt.1.value owned))
    rw [hq]
    rfl
  obtain ⟨contribs, hc⟩ := Option.isSome_iff_exists.mp hmapM
  rw [hc]
  rfl

theorem getD_set_self (l : List (Finset ℕ)) (i : ℕ) (hi : i < l.length)
    (a : Finset ℕ) : (l.set i a).getD i ∅ = a := by
  induction l generalizing i with
  | nil => simp at hi
  | cons x xs ih =>
      match i with
      | 0 => rfl
      | j + 1 => exact ih j (by simpa using hi)

theorem getD_set_other (l : List (Finset ℕ)) (i j : ℕ) (hne : i ≠ j)
    (a : Finset ℕ) : (l.set i a).getD j ∅ = l.getD j ∅ := by
  induction l generalizing i j with
  | nil => rfl
  | cons x xs ih =>
      match i, j with
      | 0, 0 => exact absurd rfl hne
      | 0, m + 1 => rfl
      | n + 1, 0 => rfl
      | n + 1, m + 1 => exact ih n m fun h => hne (by rw [h])

theorem unionAll_cons (x : Finset ℕ) (xs : List (Finset ℕ)) :
    unionAll (x :: xs) = x ∪ unionAll xs := rfl

theorem unionAll_set_insert (l : List (Finset ℕ)) (i : ℕ)
    (hi : i < l.length) (g : ℕ) :
    unionAll (l.set i (insert g (l.getD i ∅))) = insert g (unionAll l) := by
  induction l generalizing i with
  | nil => simp at hi
  | cons x xs ih =>
      match i with
      | 0 =>
          show unionAll (insert g x :: xs) = insert g (unionAll (x :: xs))
          rw [unionAll_cons, unionAll_cons, Finset.insert_union]
      | j + 1 =>
          show unionAll (x :: xs.set j (insert g (xs.getD j ∅))) =
            insert g (unionAll (x :: xs))
          rw [unionAll_cons, ih j (by simpa using hi), unionAll_cons,
            Finset.union_insert]

theorem insert_union_erase (U R : Finset ℕ) (g : ℕ) (hg : g ∈ R) :
    insert g U ∪ R.erase g = U ∪ R := by
  ext x
  by_cases hx : x = g
  · subst hx
    simp [hg]
  · simp [Finset.mem_insert, Finset.mem_erase, hx]

theorem allocate_loop_empty (fams : List (List (BinaryAgent × ℤ)))
    (bundles : List (Finset ℕ)) (turn idx : ℕ) :
    allocate_loop fams ∅ bundles turn idx = some (bundles, turn) := by
  rw [allocate_loop, dif_neg Finset.not_nonempty_empty]

theorem allocate_loop_step (fams : List (List (BinaryAgent × ℤ)))
    (remaining : Finset ℕ) (bundles : List (Finset ℕ)) (turn idx : ℕ)
    (g : ℕ) (hne : remaining.Nonempty)
    (hg : choose_good (fams.getD idx []) (bundles.getD idx ∅) remaining
      (fams.length : ℤ) = some g) :
    allocate_loop fams remaining bundles turn idx =
      allocate_loop fams (remaining.erase g)
        (bundles.set idx (insert g (bundles.getD idx ∅))) (turn + 1)
        ((idx + 1) % fams.length) := by
  rw [allocate_loop, dif_pos hne]
  split
  · next heq => rw [hg] at heq; cases heq
  · next g2 heq =>
      have hgg : g = g2 := by
        rw [hg] at heq
        exact Option.some.inj heq
      subst hgg
      rfl

theorem allocate_loop_none (fams : List (List (BinaryAgent × ℤ)))
    (remaining : Finset ℕ) (bundles : List (Finset ℕ)) (turn idx : ℕ)
    (hne : remaining.Nonempty)
    (hg : choose_good (fams.getD idx []) (bundles.getD idx ∅) remaining
      (fams.length : ℤ) = none) :
    allocate_loop fams remaining bundles turn idx = none := by
  rw [allocate_loop, dif_pos hne]
  split
  · rfl
  · next g2 heq => rw [hg] at heq; cases heq

/-- The RWAV loop invariant: when every needed `choose_good` call succeeds
(as it always does with two families), the loop terminates after exactly
`remaining.card` further turns, preserves the bundle count, keeps the
bundles pairwise disjoint, and adds exactly the remaining goods to their
union. -/
theorem allocate_loop_spec (fams : List (List (BinaryAgent × ℤ)))
    (hpos : 0 < fams.length)
    (hch : ∀ (members : List (BinaryAgent × ℤ)) (owned rem : Finset ℕ),
      rem.Nonempty →
      (choose_good members owned rem (fams.length : ℤ)).isSome) :
    ∀ (n : ℕ) (remaining : Finset ℕ) (bundles : List (Finset ℕ))
      (turn idx : ℕ),
      remaining.card = n → bundles.length = fams.length →
      idx < fams.length →
      (∀ i j, i ≠ j → Disjoint (bundles.getD i ∅) (bundles.getD j ∅)) →
      (∀ i, Disjoint (bundles.getD i ∅) remaining) →
      ∃ final, allocate_loop fams remaining bundles turn idx =
          some (final, turn + n) ∧
        final.length = fams.length ∧
        (∀ i j, i ≠ j → Disjoint (final.getD i ∅) (final.getD j ∅)) ∧
        unionAll final = unionAll bundles ∪ remaining := by
  intro n
  induction n with
  | zero =>
      intro remaining bundles turn idx hcard hlen _hidx hpair hrem
      have hempty : remaining = ∅ := Finset.card_eq_zero.mp hcard
      subst hempty
      refine ⟨bundles, ?_, hlen, hpair, by rw [Finset.union_empty]⟩
      rw [allocate_loop_empty]
      rfl
  | succ m ih =>
      intro remaining bundles turn idx hcard hlen hidx hpair hrem
      have hne : remaining.Nonempty := by
        rw [← Finset.card_pos, hcard]
        omega
      obtain ⟨g, hg⟩ := Option.isSome_iff_exists.mp
        (hch (fams.getD idx []) (bundles.getD idx ∅) remaining hne)
      have hgmem := choose_good_mem hne hg
      rw [allocate_loop_step fams remaining bundles turn idx g hne hg]
      have hidxb : idx < bundles.length := by rw [hlen]; exact hidx
      have hget : ∀ j, (bundles.set idx
          (insert g (bundles.getD idx ∅))).getD j ∅ =
          if j = idx then insert g (bundles.getD idx ∅)
          else bundles.getD j ∅ := by
        intro j
        by_cases hj : j = idx
        · subst hj
          rw [if_pos rfl, getD_set_self _ _ hidxb]
        · rw [if_neg hj, getD_set_other _ _ _ fun h => hj h.symm]
      have hpair2 : ∀ i j, i ≠ j →
          Disjoint ((bundles.set idx
            (insert g (bundles.getD idx ∅))).getD i ∅)
          ((bundles.set idx (insert g (bundles.getD idx ∅))).getD j ∅) := by
        intro i j hij
        rw [hget i, hget j]
        by_cases hi : i = idx <;> by_cases hj : j = idx
        · exact absurd (hi.trans hj.symm) hij
        · rw [if_pos hi, if_neg hj]
          rw [Finset.disjoint_left]
          intro x hx hxj
          rcases Finset.mem_insert.mp hx with rfl | hxi
          · exact (Finset.disjoint_left.mp (hrem j) hxj) hgmem
          · rw [← hi] at hxi
            exact (Finset.disjoint_left.mp (hpair i j hij) hxi) hxj
        · rw [if_neg hi, if_pos hj]
          rw [Finset.disjoint_right]
          intro x hx hxi
          rcases Finset.mem_insert.mp hx with rfl | hxj
          · exact (Finset.disjoint_left.mp (hrem i) hxi) hgmem
          · rw [← hj] at hxj
            exact (Finset.disjoint_left.mp (hpair i j hij) hxi) hxj
        · rw [if_neg hi, if_neg hj]
          exact hpair i j hij
      have hrem2 : ∀ i, Disjoint ((bundles.set idx
          (insert g (bundles.getD idx ∅))).getD i ∅)
          (remaining.erase g) := by
        intro i
        rw [hget i]
        by_cases hi : i = idx
        · rw [if_pos hi]
          rw [Finset.disjoint_left]
          intro x hx hxe
          rcases Finset.mem_insert.mp hx with rfl | hxi
          · exact Finset.not_mem_erase _ _ hxe
          · exact (Finset.disjoint_left.mp (hrem idx) hxi)
              (Finset.erase_subset _ _ hxe)
        · rw [if_neg hi]
          exact Finset.disjoint_of_subset_right
            (Finset.erase_subset _ _) (hrem i)
      obtain ⟨final, hrun, hflen, hfpair, hfunion⟩ :=
        ih (remaining.erase g)
          (bundles.set idx (insert g (bundles.getD idx ∅)))
          (turn + 1) ((idx + 1) % fams.length)
          (by rw [Finset.card_erase_of_mem hgmem, hcard]; omega)
          (by rw [List.length_set]; exact hlen)
          (Nat.mod_lt _ hpos) hpair2 hrem2
      refine ⟨final, ?_, hflen, hfpair, ?_⟩
      · rw [hrun]
        have : turn + 1 + m = turn + (m + 1) := by omega
        rw [this]
      · rw [hfunion, unionAll_set_insert bundles idx hidxb g,
          insert_union_erase _ _ _ hgmem]

/-- C2 (amended, success part): for exactly two families -- the case the
`balance` recurrence fully supports -- RWAV `allocate` returns one bundle
per family, the bundles are pairwise disjoint, their union is exactly the
input goods set, and the run takes exactly `|goods|` turns (the returned
`turn_index`), the family pointer advancing modulo the family count each
turn. For other family counts a `weight` call can raise (see the
counterexample), so the claim's "every non-empty list of families" fails. -/
theorem allocate_two_families_partition (f1 f2 : Family)
    (goods : Finset ℕ) :
    ∃ b1 b2, allocate [f1, f2] goods = some ([b1, b2], goods.card) ∧
      Disjoint b1 b2 ∧ b1 ∪ b2 = goods := by
  have hch : ∀ (members : List (BinaryAgent × ℤ)) (owned rem : Finset ℕ),
      rem.Nonempty →
      (choose_good members owned rem
        (([f1, f2].map Family.targeted).length : ℤ)).isSome := by
    intro members owned rem _
    exact choose_good_isSome members owned rem
  have hD : ∀ i, ([∅, ∅] : List (Finset ℕ)).getD i ∅ = ∅ := by
    intro i
    match i with
    | 0 => rfl
    | 1 => rfl
    | _ + 2 => rfl
  obtain ⟨final, hrun, hflen, hfpair, hfunion⟩ :=
    allocate_loop_spec ([f1, f2].map Family.targeted) (by simp) hch
      goods.card goods [∅, ∅] 0 0 rfl (by simp) (by simp)
      (fun i j _ => by rw [hD i, hD j]; exact Finset.disjoint_empty_left _)
      (fun i => by rw [hD i]; exact Finset.disjoint_empty_left _)
  obtain ⟨b1, b2, rfl⟩ := List.length_eq_two.mp
    (by rw [hflen]; rfl)
  refine ⟨b1, b2, ?_, ?_, ?_⟩
  · show allocate_loop ([f1, f2].map Family.targeted) goods [∅, ∅] 0 0 =
      some ([b1, b2], goods.card)
    rw [hrun, Nat.zero_add]
  · exact hfpair 0 1 (by omega)
  · have h2 : unionAll [b1, b2] = b1 ∪ b2 := by
      rw [unionAll_cons, unionAll_cons]
      show b1 ∪ (b2 ∪ ∅) = b1 ∪ b2
      rw [Finset.union_empty]
    have h3 : unionAll [∅, ∅] = (∅ : Finset ℕ) := by
      rw [unionAll_cons, unionAll_cons]
      show (∅ : Finset ℕ) ∪ (∅ ∪ ∅) = ∅
      simp
    rw [h2, h3, Finset.empty_union] at hfunion
    exact hfunion

/-- C2 counterexample: with three identical one-member families whose
fairness criterion assigns target 2, the very first turn computes
`weight(r=2, s=2, k=3)`, whose `balance(2,2,3)` call raises the unsupported
`ValueError` (`k>2` with `s>1`), so `allocate` crashes instead of returning a
partition: the claim's "every non-empty list of families" is false. -/
theorem allocate_three_families_crash :
    allocate
      [Family.mk [BinaryAgent.mk {0, 1} 1] (fun _ => 2),
       Family.mk [BinaryAgent.mk {0, 1} 1] (fun _ => 2),
       Family.mk [BinaryAgent.mk {0, 1} 1] (fun _ => 2)] {0, 1} = none := by
  show allocate_loop
    ([Family.mk [BinaryAgent.mk {0, 1} 1] (fun _ => 2),
      Family.mk [BinaryAgent.mk {0, 1} 1] (fun _ => 2),
      Family.mk [BinaryAgent.mk {0, 1} 1] (fun _ => 2)].map Family.targeted)
    {0, 1}
    ([Family.mk [BinaryAgent.mk {0, 1} 1] (fun _ => 2),
      Family.mk [BinaryAgent.mk {0, 1} 1] (fun _ => 2),
      Family.mk [BinaryAgent.mk {0, 1} 1] (fun _ => 2)].map fun _ => ∅)
    0 0 = none
  apply allocate_loop_none
  · exact ⟨0, by decide⟩
  · decide

/-- Witness for C2's amended theorem at two concrete families. -/
theorem allocate_two_families_partition_witness :
    ∃ b1 b2, allocate
        [Family.mk [BinaryAgent.mk {0} 1] (fun tv => if 2 ≤ tv then 1 else 0),
         Family.mk [BinaryAgent.mk {1} 1] (fun tv => if 2 ≤ tv then 1 else 0)]
        {0, 1} = some ([b1, b2], Finset.card {0, 1}) ∧
      Disjoint b1 b2 ∧ b1 ∪ b2 = {0, 1} :=
  allocate_two_families_partition
    (Family.mk [BinaryAgent.mk {0} 1] (fun tv => if 2 ≤ tv then 1 else 0))
    (Family.mk [BinaryAgent.mk {1} 1] (fun tv => if 2 ≤ tv then 1 else 0))
    {0, 1}

end FamilyFair
